import Mathlib

/-!
Verification of the `key-node-list` library: a doubly-linked list whose nodes
are addressed by application-chosen keys stored in an associative store.

The embedding below is a shallow translation of the Rust source:
* `ValueNode` is `node.rs`'s `ValueNode<K, V>` (payload plus `prev`/`next`
  optional key links); the default node type used by `KeyValueList`.
* The associative store (`Map` trait, implemented by `HashMap` in `map.rs`)
  is modelled as an association list with unique keys.  `sinsert` mirrors
  `Map::insert` for `HashMap` (line 136): it fails, returning nothing new,
  when the key is already present.  `sremove` mirrors `remove_entry`.
* `KeyNodeList` and its operations are translated statement by statement
  from `list.rs`; `CursorMut` and its operations from `cursor.rs`.
  Rust methods that mutate `&mut self` become state-passing functions; a
  method returning `Result<(), (K, T)>` becomes a function returning the
  error payload (if any) together with the new state.
* The source's internal `node_prev_mut!`/`node_next_mut!` macros do
  `node_mut(k).unwrap()`, panicking when `k` is absent; `setPrev`/`setNext`
  leave the store unchanged in that case.  Every theorem below only
  evaluates them at keys that are present, so the difference is inert.
-/

namespace KNLVerif

/-- `ValueNode<K, V>` from `node.rs`: a payload `value` plus the two link
fields `prev` and `next`, each `none` meaning "no neighbour on that side". -/
structure ValueNode (K T : Type) where
  value : T
  prev : Option K
  next : Option K
deriving DecidableEq

/-- `ValueNode::new` (and `From<V> for ValueNode`): wraps a payload with
empty links. -/
def ValueNode.new {K T : Type} (v : T) : ValueNode K T :=
  ⟨v, none, none⟩

/-- The associative store (`Map` trait in `map.rs`): a key-to-node map,
modelled as an association list whose keys stay unique. -/
abbrev Store (K T : Type) := List (K × ValueNode K T)

variable {K T : Type} [DecidableEq K] [DecidableEq T]

/-- `Map::get`: the node stored at a key, if present (first match). -/
def sget : Store K T → K → Option (ValueNode K T)
  | [], _ => none
  | (k', n) :: rest, k => if k' = k then some n else sget rest k

/-- `Map::contains_key`. -/
def scontains (s : Store K T) (k : K) : Bool :=
  (sget s k).isSome

/-- In-place update of the entry at a key (the effect of writing through
`Map::get_mut`); the store is unchanged when the key is absent (the source
would panic there via `.unwrap()`). -/
def supdate : Store K T → K → (ValueNode K T → ValueNode K T) → Store K T
  | [], _, _ => []
  | (k', n) :: rest, k, f =>
    if k' = k then (k', f n) :: rest else (k', n) :: supdate rest k f

/-- `Map::insert` as implemented for `HashMap` (`map.rs` lines 136-148):
returns nothing when the key is already present (the caller gets the
key/value back), otherwise the enlarged store. -/
def sinsert (s : Store K T) (k : K) (n : ValueNode K T) : Option (Store K T) :=
  if scontains s k then none else some (s ++ [(k, n)])

/-- `Map::remove_entry`: removes the entry at a key, returning the stored
node and the remaining store. -/
def sremove : Store K T → K → Option (ValueNode K T × Store K T)
  | [], _ => none
  | (k', n) :: rest, k =>
    if k' = k then some (n, rest)
    else (sremove rest k).map fun p => (p.1, (k', n) :: p.2)

/-- `KeyNodeList` (`list.rs` line 16): the store plus `head`/`tail` keys. -/
structure KeyNodeList (K T : Type) where
  nodes : Store K T
  head : Option K
  tail : Option K
deriving DecidableEq

namespace KeyNodeList

/-- `KeyNodeList::new` / `Default`. -/
def new : KeyNodeList K T :=
  ⟨[], none, none⟩

/-- `front_key`: reads `head`. -/
def front_key (l : KeyNodeList K T) : Option K :=
  l.head

/-- `back_key`: reads `tail`. -/
def back_key (l : KeyNodeList K T) : Option K :=
  l.tail

/-- `len`. -/
def len (l : KeyNodeList K T) : Nat :=
  l.nodes.length

/-- `is_empty`. -/
def is_empty (l : KeyNodeList K T) : Bool :=
  l.nodes.isEmpty

/-- `contains_key`. -/
def contains_key (l : KeyNodeList K T) (k : K) : Bool :=
  scontains l.nodes k

/-- `node(key)`: lookup, `none` if absent. -/
def node (l : KeyNodeList K T) (k : K) : Option (ValueNode K T) :=
  sget l.nodes k

/-- `clear`: empties the store and resets `head`/`tail`. -/
def clear (_ : KeyNodeList K T) : KeyNodeList K T :=
  ⟨[], none, none⟩

/-- The effect of `*node_prev_mut!(self, k) = p` (no-op when `k` is absent,
where the source would panic). -/
def setPrev (l : KeyNodeList K T) (k : K) (p : Option K) : KeyNodeList K T :=
  { l with nodes := supdate l.nodes k fun n => { n with prev := p } }

/-- The effect of `*node_next_mut!(self, k) = q` (no-op when `k` is absent,
where the source would panic). -/
def setNext (l : KeyNodeList K T) (k : K) (q : Option K) : KeyNodeList K T :=
  { l with nodes := supdate l.nodes k fun n => { n with next := q } }

/-- `push_front` (`list.rs` lines 295-306).  The first component is the
rejected `(key, value)` pair when the key already exists (`Err` in Rust);
the second is the resulting list (unchanged on rejection). -/
def push_front (l : KeyNodeList K T) (key : K) (v : T) :
    Option (K × T) × KeyNodeList K T :=
  match sinsert l.nodes key (ValueNode.new v) with
  | none => (some (key, v), l)
  | some ns =>
    let next := l.head
    let l1 : KeyNodeList K T := ⟨ns, some key, l.tail⟩
    let l2 := match next with
      | some k => setPrev l1 k (some key)
      | none => { l1 with tail := some key }
    (none, setNext (setPrev l2 key none) key next)

/-- `push_back` (`list.rs` lines 313-324), same convention as
`push_front`. -/
def push_back (l : KeyNodeList K T) (key : K) (v : T) :
    Option (K × T) × KeyNodeList K T :=
  match sinsert l.nodes key (ValueNode.new v) with
  | none => (some (key, v), l)
  | some ns =>
    let prev := l.tail
    let l1 : KeyNodeList K T := ⟨ns, l.head, some key⟩
    let l2 := match prev with
      | some k => setNext l1 k (some key)
      | none => { l1 with head := some key }
    (none, setNext (setPrev l2 key prev) key none)

/-- `pop_front` (`list.rs` lines 356-362): takes `head`, removes that entry
and sets `head` to the removed node's `next`.  Note the source touches
neither `tail` nor the new head node's `prev` field.  When `head` names an
absent key the source panics (`.unwrap()`); the model returns no pair. -/
def pop_front (l : KeyNodeList K T) :
    Option (K × ValueNode K T) × KeyNodeList K T :=
  match l.head with
  | none => (none, l)
  | some k =>
    match sremove l.nodes k with
    | none => (none, l)
    | some (n, ns) => (some (k, n), ⟨ns, n.next, l.tail⟩)

/-- `pop_back` (`list.rs` lines 368-374), mirror image of `pop_front`:
`head` and the new tail node's `next` field are left untouched. -/
def pop_back (l : KeyNodeList K T) :
    Option (K × ValueNode K T) × KeyNodeList K T :=
  match l.tail with
  | none => (none, l)
  | some k =>
    match sremove l.nodes k with
    | none => (none, l)
    | some (n, ns) => (some (k, n), ⟨ns, l.head, n.prev⟩)

/-- `remove` (`list.rs` lines 378-394): removes the entry, then re-links the
neighbours (or `head`/`tail` at a boundary). -/
def remove (l : KeyNodeList K T) (key : K) :
    Option (K × ValueNode K T) × KeyNodeList K T :=
  match sremove l.nodes key with
  | none => (none, l)
  | some (n, ns) =>
    let l1 : KeyNodeList K T := ⟨ns, l.head, l.tail⟩
    let l2 := match n.prev with
      | some k => setNext l1 k n.next
      | none => { l1 with head := n.next }
    let l3 := match n.next with
      | some k => setPrev l2 k n.prev
      | none => { l2 with tail := n.prev }
    (some (key, n), l3)

/-- `Extend<(K, T)>` (`list.rs` lines 460-472): pushes every pair to the
back in input order, discarding the `push_back` error (`let _ = ...`). -/
def extend (l : KeyNodeList K T) (ps : List (K × T)) : KeyNodeList K T :=
  ps.foldl (fun acc kv => (acc.push_back kv.1 kv.2).2) l

/-- `FromIterator<(K, T)>` (`list.rs` lines 513-525): extend an empty list.
`From<[(K, T); LEN]>` (lines 501-511) is `collect`, i.e. the same
function. -/
def fromList (ps : List (K × T)) : KeyNodeList K T :=
  extend new ps

end KeyNodeList

/-- Result of the `Index` operator (`list.rs` lines 553-570): either the
node, or a panic carrying the `expect` message. -/
inductive IndexResult (K T : Type) where
  | found : ValueNode K T → IndexResult K T
  | panicked : String → IndexResult K T
deriving DecidableEq

/-- `Index<&Q> for KeyNodeList`: `self.nodes.get(key).expect("no entry found
for key")`. -/
def KeyNodeList.index (l : KeyNodeList K T) (key : K) : IndexResult K T :=
  match sget l.nodes key with
  | some n => .found n
  | none => .panicked "no entry found for key"

/-- One step of `IntoIter::next` (`iter.rs` lines 20-23) is `pop_front`.
`drainAux` iterates it with explicit fuel; a successful pop removes exactly
one store entry, so fuel `l.nodes.length` never truncates (`pop_front`
returns no pair once the reachable chain is exhausted). -/
def drainAux : Nat → KeyNodeList K T → List (K × ValueNode K T)
  | 0, _ => []
  | fuel + 1, l =>
    match l.pop_front with
    | (none, _) => []
    | (some p, l') => p :: drainAux fuel l'

/-- The full sequence of pairs yielded by `into_iter` (collected). -/
def KeyNodeList.drain (l : KeyNodeList K T) : List (K × ValueNode K T) :=
  drainAux l.nodes.length l

/-- `CursorMut` (`cursor.rs` line 182): an exclusive handle on a list plus a
current position, `none` being the null position.  The read-only `Cursor`
has the same position data and shares all movement code through the
`impl_cursor!` macro, so the movement functions below cover both. -/
structure CursorMut (K T : Type) where
  list : KeyNodeList K T
  key : Option K
deriving DecidableEq

/-- The position reached by `move_next` (`cursor.rs` lines 134-139): from
null to `head`; from a key to that node's `next` link (null when the node
is the tail, or the key dangles). -/
def moveNextKey (l : KeyNodeList K T) : Option K → Option K
  | none => l.head
  | some k => (sget l.nodes k).bind fun n => n.next

/-- The position reached by `move_prev` (`cursor.rs` lines 148-153),
mirror image of `moveNextKey`. -/
def movePrevKey (l : KeyNodeList K T) : Option K → Option K
  | none => l.tail
  | some k => (sget l.nodes k).bind fun n => n.prev

namespace CursorMut

/-- `move_next` on a cursor. -/
def move_next (c : CursorMut K T) : CursorMut K T :=
  { c with key := moveNextKey c.list c.key }

/-- `move_prev` on a cursor. -/
def move_prev (c : CursorMut K T) : CursorMut K T :=
  { c with key := movePrevKey c.list c.key }

/-- `CursorMut::insert_after` (`cursor.rs` lines 256-279).  First component
is the rejected `(key, value)` on duplicate key, second the new cursor
state (list and unchanged position). -/
def insert_after (c : CursorMut K T) (key : K) (v : T) :
    Option (K × T) × CursorMut K T :=
  match sinsert c.list.nodes key (ValueNode.new v) with
  | none => (some (key, v), c)
  | some ns =>
    let l0 : KeyNodeList K T := ⟨ns, c.list.head, c.list.tail⟩
    -- `next` is read, then replaced by `key`, at the cursor (or at `head`)
    let step : Option K × KeyNodeList K T :=
      match c.key with
      | some k => ((sget l0.nodes k).bind (fun n => n.next),
                   l0.setNext k (some key))
      | none => (l0.head, { l0 with head := some key })
    let l2 := match step.1 with
      | some k2 => step.2.setPrev k2 (some key)
      | none => { step.2 with tail := some key }
    (none, ⟨(l2.setPrev key c.key).setNext key step.1, c.key⟩)

/-- `CursorMut::insert_before` (`cursor.rs` lines 287-310), mirror image of
`insert_after`. -/
def insert_before (c : CursorMut K T) (key : K) (v : T) :
    Option (K × T) × CursorMut K T :=
  match sinsert c.list.nodes key (ValueNode.new v) with
  | none => (some (key, v), c)
  | some ns =>
    let l0 : KeyNodeList K T := ⟨ns, c.list.head, c.list.tail⟩
    let step : Option K × KeyNodeList K T :=
      match c.key with
      | some k => ((sget l0.nodes k).bind (fun n => n.prev),
                   l0.setPrev k (some key))
      | none => (l0.tail, { l0 with tail := some key })
    let l2 := match step.1 with
      | some k2 => step.2.setNext k2 (some key)
      | none => { step.2 with head := some key }
    (none, ⟨(l2.setPrev key step.1).setNext key c.key, c.key⟩)

/-- `CursorMut::remove_current` (`cursor.rs` lines 346-352): takes the
cursor key, removes that pair through `KeyNodeList::remove`, and re-points
the cursor at the removed node's former `next`.  When the cursor key is
absent from the list the source panics (`.unwrap()`); the model returns no
pair with the key already taken. -/
def remove_current (c : CursorMut K T) :
    Option (K × ValueNode K T) × CursorMut K T :=
  match c.key with
  | none => (none, c)
  | some k =>
    match c.list.remove k with
    | (none, l') => (none, ⟨l', none⟩)
    | (some pair, l') => (some pair, ⟨l', pair.2.next⟩)

/-- `CursorMut::pop_front` (`cursor.rs` lines 383-388): `move_next` first
when the cursor sits at the front key, then delegate to the list. -/
def pop_front (c : CursorMut K T) :
    Option (K × ValueNode K T) × CursorMut K T :=
  let c1 := if c.list.head = c.key then c.move_next else c
  let r := c1.list.pop_front
  (r.1, ⟨r.2, c1.key⟩)

/-- `CursorMut::pop_back` (`cursor.rs` lines 397-402): null the cursor
first when it sits at the back key, then delegate to the list. -/
def pop_back (c : CursorMut K T) :
    Option (K × ValueNode K T) × CursorMut K T :=
  let c1 := if c.list.tail = c.key then { c with key := none } else c
  let r := c1.list.pop_back
  (r.1, ⟨r.2, c1.key⟩)

end CursorMut

/-! ## The section-3 data-model invariants, via an abstraction relation

`Represents l kvs` says the concrete state `l` realises the key/value
sequence `kvs` in traversal order.  Its conjuncts are exactly the five
invariants of spec section 3: head/tail match the ends of the sequence
(invariants 1 and 2 via `chainOk`'s boundary links), `chainOk` checks the
mutually consistent two-way chain (invariants 2-4), key uniqueness gives
invariant 5, and the two membership conjuncts make the chain cover the
store exactly (invariant 4). -/

/-- The key that follows a chain segment: the first key of `rest`, or the
outer continuation `q` when the segment is exhausted. -/
def nextKey (rest : List (K × T)) (q : Option K) : Option K :=
  match rest with
  | [] => q
  | (k, _) :: _ => some k

/-- The last key of a chain segment, relative to the key `p` that precedes
the segment. -/
def lastKey : List (K × T) → Option K → Option K
  | [], p => p
  | (k, _) :: rest, _ => lastKey rest (some k)

/-- `chainOk s p kvs q`: walking the keys of `kvs` through store `s`, every
node carries the expected value, its `prev` points at the preceding key
(`p` before the first) and its `next` at the following key (`q` after the
last). -/
def chainOk (s : Store K T) : Option K → List (K × T) → Option K → Bool
  | _, [], _ => true
  | p, (k, v) :: rest, q =>
    match sget s k with
    | none => false
    | some n =>
      decide (n.value = v) && decide (n.prev = p) &&
        decide (n.next = nextKey rest q) && chainOk s (some k) rest q

/-- The abstraction relation: `l` is a well-formed list realising the
ordered key/value sequence `kvs` (spec section 3 invariants). -/
def Represents (l : KeyNodeList K T) (kvs : List (K × T)) : Prop :=
  l.head = nextKey kvs none ∧
  l.tail = lastKey kvs none ∧
  (l.nodes.map Prod.fst).Nodup ∧
  (kvs.map Prod.fst).Nodup ∧
  (∀ k ∈ l.nodes.map Prod.fst, k ∈ kvs.map Prod.fst) ∧
  (∀ k ∈ kvs.map Prod.fst, k ∈ l.nodes.map Prod.fst) ∧
  chainOk l.nodes none kvs none = true

instance (l : KeyNodeList K T) (kvs : List (K × T)) :
    Decidable (Represents l kvs) := by
  unfold Represents; infer_instance

/-- First occurrences win: the key/value sequence obtained from `kvs` by
appending, in input order, each pair of the second list whose key is not
yet taken.  This is the abstract counterpart of `extend`. -/
def extendPairs (kvs : List (K × T)) : List (K × T) → List (K × T)
  | [] => kvs
  | (k, v) :: rest =>
    if k ∈ kvs.map Prod.fst then extendPairs kvs rest
    else extendPairs (kvs ++ [(k, v)]) rest

/-! ## Lemmas about the store -/

set_option linter.unusedSectionVars false

theorem sget_isSome_iff_mem {s : Store K T} {k : K} :
    (sget s k).isSome = true ↔ k ∈ s.map Prod.fst := by
  induction s with
  | nil => simp [sget]
  | cons hd tl ih =>
    obtain ⟨k', n⟩ := hd
    simp only [sget, List.map_cons, List.mem_cons]
    by_cases h : k' = k
    · subst h
      simp
    · rw [if_neg h, ih]
      constructor
      · exact Or.inr
      · intro hm
        rcases hm with hm | hm
        · exact absurd hm.symm h
        · exact hm

theorem sget_eq_none_iff {s : Store K T} {k : K} :
    sget s k = none ↔ k ∉ s.map Prod.fst := by
  rw [← sget_isSome_iff_mem]
  cases h : sget s k <;> simp

theorem mem_exists_sget {s : Store K T} {k : K}
    (h : k ∈ s.map Prod.fst) : ∃ n, sget s k = some n := by
  rw [← sget_isSome_iff_mem] at h
  exact Option.isSome_iff_exists.mp h

theorem sget_supdate_self {s : Store K T} {k : K}
    {f : ValueNode K T → ValueNode K T} :
    sget (supdate s k f) k = (sget s k).map f := by
  induction s with
  | nil => simp [sget, supdate]
  | cons hd tl ih =>
    obtain ⟨k', n⟩ := hd
    by_cases h : k' = k
    · subst h
      simp [sget, supdate]
    · simp [sget, supdate, h, ih]

theorem sget_supdate_ne {s : Store K T} {k k' : K}
    {f : ValueNode K T → ValueNode K T} (hne : k' ≠ k) :
    sget (supdate s k f) k' = sget s k' := by
  have hne2 : ¬ k = k' := fun hh => hne hh.symm
  induction s with
  | nil => simp [supdate]
  | cons hd tl ih =>
    obtain ⟨k0, n⟩ := hd
    by_cases h0 : k0 = k
    · subst h0
      simp [sget, supdate, hne2]
    · by_cases h1 : k0 = k'
      · subst h1
        simp [sget, supdate, h0]
      · simp [sget, supdate, h0, h1, ih]

theorem supdate_keys {s : Store K T} {k : K}
    {f : ValueNode K T → ValueNode K T} :
    (supdate s k f).map Prod.fst = s.map Prod.fst := by
  induction s with
  | nil => simp [supdate]
  | cons hd tl ih =>
    obtain ⟨k', n⟩ := hd
    by_cases h : k' = k <;> simp [supdate, h, ih]

theorem sget_append_left {s t : Store K T} {k : K} {n : ValueNode K T}
    (h : sget s k = some n) : sget (s ++ t) k = some n := by
  induction s with
  | nil => simp [sget] at h
  | cons hd tl ih =>
    obtain ⟨k', n'⟩ := hd
    by_cases h0 : k' = k <;> simp_all [sget]

theorem sget_append_fresh {s : Store K T} {k : K} {n : ValueNode K T}
    (h : sget s k = none) : sget (s ++ [(k, n)]) k = some n := by
  induction s with
  | nil => simp [sget]
  | cons hd tl ih =>
    obtain ⟨k', n'⟩ := hd
    by_cases h0 : k' = k <;> simp_all [sget]

theorem sremove_of_sget {s : Store K T} {k : K} {n : ValueNode K T}
    (h : sget s k = some n) : ∃ s', sremove s k = some (n, s') := by
  induction s with
  | nil => simp [sget] at h
  | cons hd tl ih =>
    obtain ⟨k', n'⟩ := hd
    by_cases h0 : k' = k
    · simp [sget, h0] at h
      exact ⟨tl, by simp [sremove, h0, h]⟩
    · simp [sget, h0] at h
      obtain ⟨s', hs'⟩ := ih h
      exact ⟨(k', n') :: s', by simp [sremove, h0, hs']⟩

theorem sget_sremove_of_nodup {s s' : Store K T} {k : K} {n : ValueNode K T}
    (hnd : (s.map Prod.fst).Nodup) (h : sremove s k = some (n, s')) :
    sget s' k = none := by
  induction s generalizing s' with
  | nil => simp [sremove] at h
  | cons hd tl ih =>
    obtain ⟨k', n'⟩ := hd
    simp only [List.map_cons, List.nodup_cons] at hnd
    by_cases h0 : k' = k
    · subst h0
      simp [sremove] at h
      rw [← h.2, sget_eq_none_iff]
      exact hnd.1
    · simp only [sremove, if_neg h0, Option.map_eq_some'] at h
      obtain ⟨⟨m, s''⟩, hrec, heq⟩ := h
      obtain ⟨rfl, rfl⟩ := Prod.mk.inj heq
      simp only [sget, if_neg h0]
      exact ih hnd.2 hrec

/-! ## Lemmas about the chain predicate -/

theorem nextKey_append {xs ys : List (K × T)} {q : Option K} :
    nextKey (xs ++ ys) q = nextKey xs (nextKey ys q) := by
  cases xs with
  | nil => rfl
  | cons hd tlx =>
    obtain ⟨k, v⟩ := hd
    rfl

theorem lastKey_append {xs ys : List (K × T)} {p : Option K} :
    lastKey (xs ++ ys) p = lastKey ys (lastKey xs p) := by
  induction xs generalizing p with
  | nil => rfl
  | cons hd tlx ih =>
    obtain ⟨k, v⟩ := hd
    simp [lastKey, ih]

theorem lastKey_ne_none {xs : List (K × T)} {p : Option K} (h : xs ≠ []) :
    ∃ kt, lastKey xs p = some kt := by
  induction xs generalizing p with
  | nil => exact absurd rfl h
  | cons hd tlx ih =>
    obtain ⟨k, v⟩ := hd
    by_cases h0 : tlx = []
    · subst h0
      exact ⟨k, rfl⟩
    · simp only [lastKey]
      exact ih h0

theorem lastKey_mem {xs : List (K × T)} {p : Option K} {kt : K}
    (hxs : xs ≠ []) (h : lastKey xs p = some kt) : kt ∈ xs.map Prod.fst := by
  induction xs generalizing p with
  | nil => exact absurd rfl hxs
  | cons hd tlx ih =>
    obtain ⟨k, v⟩ := hd
    simp only [lastKey] at h
    by_cases h0 : tlx = []
    · subst h0
      simp only [lastKey] at h
      simp only [List.map_cons, List.map_nil, List.mem_cons,
        List.not_mem_nil, or_false]
      exact (Option.some.inj h).symm
    · simp only [List.map_cons, List.mem_cons]
      exact Or.inr (ih h0 h)

theorem chainOk_cons {s : Store K T} {p q : Option K} {k : K} {v : T}
    {rest : List (K × T)} :
    chainOk s p ((k, v) :: rest) q = true ↔
      ∃ n, sget s k = some n ∧ n.value = v ∧ n.prev = p ∧
        n.next = nextKey rest q ∧ chainOk s (some k) rest q = true := by
  cases h : sget s k <;> simp [chainOk, h, and_assoc]

theorem chainOk_congr {s s' : Store K T} {p q : Option K} {xs : List (K × T)}
    (hagree : ∀ k ∈ xs.map Prod.fst, sget s' k = sget s k) :
    chainOk s' p xs q = chainOk s p xs q := by
  induction xs generalizing p with
  | nil => rfl
  | cons hd tlx ih =>
    obtain ⟨k, v⟩ := hd
    have hk : sget s' k = sget s k := hagree k (by simp)
    have hrest : ∀ k' ∈ tlx.map Prod.fst, sget s' k' = sget s k' :=
      fun k' hk' => hagree k' (by simp [hk'])
    simp only [chainOk, hk]
    cases sget s k
    · rfl
    · rw [ih hrest]

theorem chainOk_sget {s : Store K T} {p q : Option K} {xs : List (K × T)}
    (h : chainOk s p xs q = true) :
    ∀ k ∈ xs.map Prod.fst, ∃ n, sget s k = some n := by
  induction xs generalizing p with
  | nil => simp
  | cons hd tlx ih =>
    obtain ⟨k0, v0⟩ := hd
    rw [chainOk_cons] at h
    obtain ⟨n, hn, _, _, _, hrest⟩ := h
    intro k hk
    simp only [List.map_cons, List.mem_cons] at hk
    rcases hk with rfl | hk'
    · exact ⟨n, hn⟩
    · exact ih hrest k hk'

theorem chainOk_append {s : Store K T} {p q : Option K} {xs ys : List (K × T)} :
    chainOk s p (xs ++ ys) q =
      (chainOk s p xs (nextKey ys q) && chainOk s (lastKey xs p) ys q) := by
  induction xs generalizing p with
  | nil => simp [chainOk, lastKey]
  | cons hd tlx ih =>
    obtain ⟨k, v⟩ := hd
    simp only [List.cons_append, chainOk, lastKey, List.append_eq]
    cases sget s k
    · rfl
    · simp [ih, nextKey_append, Bool.and_assoc]

theorem chainOk_retarget_last {s : Store K T} {p : Option K}
    {xs : List (K × T)} {kt knew : K}
    (hok : chainOk s p xs none = true) (hlast : lastKey xs p = some kt)
    (hnd : (xs.map Prod.fst).Nodup) (hxs : xs ≠ []) :
    chainOk (supdate s kt fun n => { n with next := some knew }) p xs
      (some knew) = true := by
  induction xs generalizing p with
  | nil => exact absurd rfl hxs
  | cons hd tlx ih =>
    obtain ⟨k, v⟩ := hd
    rw [chainOk_cons] at hok
    obtain ⟨n, hn, hval, hprev, hnext, hrest⟩ := hok
    by_cases h0 : tlx = []
    · subst h0
      simp only [lastKey] at hlast
      obtain rfl := Option.some.inj hlast
      rw [chainOk_cons]
      refine ⟨{ n with next := some knew }, ?_, hval, hprev, rfl, rfl⟩
      rw [sget_supdate_self, hn]
      rfl
    · have hlast' : lastKey tlx (some k) = some kt := by
        simpa [lastKey] using hlast
      have hktmem : kt ∈ tlx.map Prod.fst := lastKey_mem h0 hlast'
      simp only [List.map_cons, List.nodup_cons] at hnd
      have hkne : k ≠ kt := fun hh => hnd.1 (hh ▸ hktmem)
      rw [chainOk_cons]
      refine ⟨n, ?_, hval, hprev, ?_, ?_⟩
      · rw [sget_supdate_ne hkne, hn]
      · cases tlx with
        | nil => exact absurd rfl h0
        | cons hd2 tl2 =>
          obtain ⟨k2, v2⟩ := hd2
          simpa [nextKey] using hnext
      · exact ih hrest hlast' hnd.2 h0

theorem chainOk_next_step {s : Store K T} {p : Option K} {xs : List (K × T)}
    (hok : chainOk s p xs none = true) :
    ∀ i k, (xs.map Prod.fst).get? i = some k →
      (sget s k).bind (fun n => n.next) = (xs.map Prod.fst).get? (i + 1) := by
  induction xs generalizing p with
  | nil =>
    intro i k h
    simp at h
  | cons hd tlx ih =>
    obtain ⟨k0, v0⟩ := hd
    rw [chainOk_cons] at hok
    obtain ⟨n, hn, _hval, _hprev, hnext, hrest⟩ := hok
    intro i k hk
    cases i with
    | zero =>
      simp only [List.map_cons, List.get?_cons_zero] at hk
      obtain rfl := Option.some.inj hk
      rw [hn]
      simp only [Option.some_bind]
      rw [hnext]
      cases tlx with
      | nil => rfl
      | cons hd2 tl2 =>
        obtain ⟨k2, v2⟩ := hd2
        rfl
    | succ j =>
      simp only [List.map_cons, List.get?_cons_succ] at hk
      have hstep := ih hrest j k hk
      simpa using hstep

theorem chainOk_prev_zero {s : Store K T} {p q : Option K} {xs : List (K × T)}
    (hok : chainOk s p xs q = true) :
    ∀ k, (xs.map Prod.fst).get? 0 = some k →
      (sget s k).bind (fun n => n.prev) = p := by
  cases xs with
  | nil =>
    intro k h
    simp at h
  | cons hd tlx =>
    obtain ⟨k0, v0⟩ := hd
    rw [chainOk_cons] at hok
    obtain ⟨n, hn, _, hprev, _, _⟩ := hok
    intro k hk
    simp only [List.map_cons, List.get?_cons_zero] at hk
    obtain rfl := Option.some.inj hk
    rw [hn]
    simpa using hprev

theorem chainOk_prev_step {s : Store K T} {p q : Option K} {xs : List (K × T)}
    (hok : chainOk s p xs q = true) :
    ∀ i k, (xs.map Prod.fst).get? (i + 1) = some k →
      (sget s k).bind (fun n => n.prev) = (xs.map Prod.fst).get? i := by
  induction xs generalizing p with
  | nil =>
    intro i k h
    simp at h
  | cons hd tlx ih =>
    obtain ⟨k0, v0⟩ := hd
    rw [chainOk_cons] at hok
    obtain ⟨n, hn, _, _, _, hrest⟩ := hok
    intro i k hk
    simp only [List.map_cons, List.get?_cons_succ] at hk
    cases i with
    | zero =>
      have hz := chainOk_prev_zero hrest k hk
      simpa using hz
    | succ j =>
      have hstep := ih hrest j k hk
      simpa using hstep

/-! ## Lemmas about the abstraction relation -/

theorem represents_new : Represents (KeyNodeList.new : KeyNodeList K T) [] := by
  refine ⟨rfl, rfl, ?_, ?_, ?_, ?_, rfl⟩ <;> simp [KeyNodeList.new]

theorem sget_supdate_none {s : Store K T} {k k' : K}
    {f : ValueNode K T → ValueNode K T} (h : sget s k = none) :
    sget (supdate s k' f) k = none := by
  by_cases he : k = k'
  · subst he
    rw [sget_supdate_self, h]
    rfl
  · rw [sget_supdate_ne he, h]

theorem moveNextKey_none_eq {l : KeyNodeList K T} {kvs : List (K × T)}
    (h : Represents l kvs) :
    moveNextKey l none = (kvs.map Prod.fst).get? 0 := by
  obtain ⟨hhead, -, -, -, -, -, -⟩ := h
  show l.head = _
  rw [hhead]
  cases kvs with
  | nil => rfl
  | cons hd tl2 =>
    obtain ⟨k2, v2⟩ := hd
    rfl

theorem moveNext_iterate {l : KeyNodeList K T} {kvs : List (K × T)}
    (h : Represents l kvs) :
    ∀ i, i ≤ kvs.length →
      (moveNextKey l)^[i + 1] none = (kvs.map Prod.fst).get? i := by
  intro i
  induction i with
  | zero =>
    intro _
    rw [Function.iterate_one]
    exact moveNextKey_none_eq h
  | succ j ihj =>
    intro hle
    have hj : j ≤ kvs.length := Nat.le_of_succ_le hle
    rw [Function.iterate_succ_apply', ihj hj]
    have hjlt : j < (kvs.map Prod.fst).length := by
      rw [List.length_map]
      exact Nat.lt_of_succ_le hle
    have hk := List.get?_eq_get hjlt
    rw [hk]
    exact chainOk_next_step h.2.2.2.2.2.2 j _ hk

theorem moveNext_cycle {l : KeyNodeList K T} {kvs : List (K × T)}
    (h : Represents l kvs) (i : Nat) :
    (moveNextKey l)^[i + (kvs.length + 1)] none = (moveNextKey l)^[i] none := by
  rw [Function.iterate_add_apply]
  have hlen : (kvs.map Prod.fst).length ≤ kvs.length := by
    rw [List.length_map]
  have hlast : (moveNextKey l)^[kvs.length + 1] none = none := by
    rw [moveNext_iterate h kvs.length (Nat.le_refl _)]
    exact List.get?_eq_none.mpr hlen
  rw [hlast]

theorem push_front_dup {l : KeyNodeList K T} {k : K} {v : T}
    (h : scontains l.nodes k = true) :
    l.push_front k v = (some (k, v), l) := by
  simp [KeyNodeList.push_front, sinsert, h]

theorem push_back_dup {l : KeyNodeList K T} {k : K} {v : T}
    (h : scontains l.nodes k = true) :
    l.push_back k v = (some (k, v), l) := by
  simp [KeyNodeList.push_back, sinsert, h]

theorem insert_after_dup {c : CursorMut K T} {k : K} {v : T}
    (h : scontains c.list.nodes k = true) :
    c.insert_after k v = (some (k, v), c) := by
  simp [CursorMut.insert_after, sinsert, h]

theorem insert_before_dup {c : CursorMut K T} {k : K} {v : T}
    (h : scontains c.list.nodes k = true) :
    c.insert_before k v = (some (k, v), c) := by
  simp [CursorMut.insert_before, sinsert, h]

theorem push_back_represents {l : KeyNodeList K T} {kvs : List (K × T)}
    {k : K} {v : T} (h : Represents l kvs) (hk : sget l.nodes k = none) :
    (l.push_back k v).1 = none ∧
      Represents (l.push_back k v).2 (kvs ++ [(k, v)]) := by
  obtain ⟨hhead, htail, hsnd, hknd, hsub1, hsub2, hchain⟩ := h
  have hkmem : k ∉ l.nodes.map Prod.fst := sget_eq_none_iff.mp hk
  have hkkvs : k ∉ kvs.map Prod.fst := fun hm => hkmem (hsub2 k hm)
  have hcont : scontains l.nodes k = false := by
    simp [scontains, hk]
  have hins : sinsert l.nodes k (ValueNode.new v) =
      some (l.nodes ++ [(k, ValueNode.new v)]) := by
    simp [sinsert, hcont]
  by_cases hnil : kvs = []
  · subst hnil
    have hsnil : l.nodes = [] := by
      cases hsx : l.nodes with
      | nil => rfl
      | cons hd tl2 =>
        exfalso
        exact absurd (hsub1 hd.1 (by simp [hsx])) (by simp)
    have htail2 : l.tail = none := by
      simpa [lastKey] using htail
    have hresult : l.push_back k v =
        (none, ⟨[(k, ValueNode.new v)], some k, some k⟩) := by
      simp [KeyNodeList.push_back, hsnil, htail2, sinsert, scontains, sget,
        KeyNodeList.setPrev, KeyNodeList.setNext, supdate, ValueNode.new]
    rw [hresult]
    refine ⟨rfl, rfl, rfl, ?_, ?_, ?_, ?_, ?_⟩
    · simp
    · simp
    · exact fun k' hm => hm
    · exact fun k' hm => hm
    · simp [chainOk, sget, nextKey, ValueNode.new]
  · obtain ⟨kt, hkt⟩ := lastKey_ne_none (p := none) hnil
    have hktail : l.tail = some kt := by
      rw [htail, hkt]
    have hktmem : kt ∈ kvs.map Prod.fst := lastKey_mem hnil hkt
    have hktstore : kt ∈ l.nodes.map Prod.fst := hsub2 kt hktmem
    have hktk : kt ≠ k := fun hh => hkmem (hh ▸ hktstore)
    have hresult : l.push_back k v =
        (none,
          ⟨supdate (supdate
              (supdate (l.nodes ++ [(k, ValueNode.new v)]) kt
                (fun n => { n with next := some k })) k
              (fun n => { n with prev := some kt })) k
              (fun n => { n with next := none }),
            l.head, some k⟩) := by
      simp [KeyNodeList.push_back, hins, hktail, KeyNodeList.setNext,
        KeyNodeList.setPrev]
    rw [hresult]
    -- lookups in the final store
    have hg1 : sget (l.nodes ++ [(k, ValueNode.new v)]) k =
        some (ValueNode.new v) := sget_append_fresh hk
    have hg2 : sget (supdate (l.nodes ++ [(k, ValueNode.new v)]) kt
        (fun n => { n with next := some k })) k = some (ValueNode.new v) := by
      rw [sget_supdate_ne hktk.symm, hg1]
    have hgk : sget (supdate (supdate
        (supdate (l.nodes ++ [(k, ValueNode.new v)]) kt
          (fun n => { n with next := some k })) k
        (fun n => { n with prev := some kt })) k
        (fun n => { n with next := none })) k = some ⟨v, some kt, none⟩ := by
      rw [sget_supdate_self, sget_supdate_self, hg2]
      rfl
    -- the chain over the original pairs survives the surgery
    have hagree1 : ∀ k' ∈ kvs.map Prod.fst,
        sget (l.nodes ++ [(k, ValueNode.new v)]) k' = sget l.nodes k' := by
      intro k' hk'
      obtain ⟨n', hn'⟩ := chainOk_sget hchain k' hk'
      rw [hn', sget_append_left hn']
    have hc1 : chainOk (l.nodes ++ [(k, ValueNode.new v)]) none kvs none
        = true := by
      rw [chainOk_congr hagree1]
      exact hchain
    have hc2 : chainOk (supdate (l.nodes ++ [(k, ValueNode.new v)]) kt
        (fun n => { n with next := some k })) none kvs (some k) = true :=
      chainOk_retarget_last hc1 hkt hknd hnil
    have hagree2 : ∀ k' ∈ kvs.map Prod.fst,
        sget (supdate (supdate
          (supdate (l.nodes ++ [(k, ValueNode.new v)]) kt
            (fun n => { n with next := some k })) k
          (fun n => { n with prev := some kt })) k
          (fun n => { n with next := none })) k' =
        sget (supdate (l.nodes ++ [(k, ValueNode.new v)]) kt
          (fun n => { n with next := some k })) k' := by
      intro k' hk'
      have hne : k' ≠ k := fun hh => hkkvs (hh ▸ hk')
      rw [sget_supdate_ne hne, sget_supdate_ne hne]
    have hcleft : chainOk (supdate (supdate
        (supdate (l.nodes ++ [(k, ValueNode.new v)]) kt
          (fun n => { n with next := some k })) k
        (fun n => { n with prev := some kt })) k
        (fun n => { n with next := none })) none kvs (some k) = true := by
      rw [chainOk_congr hagree2]
      exact hc2
    have hkeys : (supdate (supdate
        (supdate (l.nodes ++ [(k, ValueNode.new v)]) kt
          (fun n => { n with next := some k })) k
        (fun n => { n with prev := some kt })) k
        (fun n => { n with next := none })).map Prod.fst =
        l.nodes.map Prod.fst ++ [k] := by
      rw [supdate_keys, supdate_keys, supdate_keys, List.map_append]
      rfl
    refine ⟨rfl, ?_, ?_, ?_, ?_, ?_, ?_, ?_⟩
    · -- head of the new list is still the head of `kvs`
      show l.head = _
      rw [nextKey_append]
      cases kvs with
      | nil => exact absurd rfl hnil
      | cons hd tl2 =>
        obtain ⟨k2, v2⟩ := hd
        simpa [nextKey] using hhead
    · -- tail is the new key
      show some k = _
      rw [lastKey_append]
      rfl
    · -- store keys stay unique
      show (List.map Prod.fst _).Nodup
      rw [hkeys, List.nodup_append]
      refine ⟨hsnd, List.nodup_singleton k, ?_⟩
      intro a ha hb
      rw [List.mem_singleton] at hb
      subst hb
      exact hkmem ha
    · -- sequence keys stay unique
      rw [List.map_append, List.nodup_append]
      refine ⟨hknd, List.nodup_singleton k, ?_⟩
      intro a ha hb
      simp only [List.map_cons, List.map_nil, List.mem_singleton] at hb
      subst hb
      exact hkkvs ha
    · intro k' hk'
      rw [hkeys] at hk'
      rw [List.map_append]
      rcases List.mem_append.mp hk' with hmem | hmem
      · exact List.mem_append.mpr (Or.inl (hsub1 k' hmem))
      · exact List.mem_append.mpr (Or.inr (by simpa using hmem))
    · intro k' hk'
      rw [List.map_append] at hk'
      rw [hkeys]
      rcases List.mem_append.mp hk' with hmem | hmem
      · exact List.mem_append.mpr (Or.inl (hsub2 k' hmem))
      · exact List.mem_append.mpr (Or.inr (by simpa using hmem))
    · show chainOk _ none (kvs ++ [(k, v)]) none = true
      rw [chainOk_append, Bool.and_eq_true]
      constructor
      · exact hcleft
      · rw [hkt, chainOk_cons]
        exact ⟨⟨v, some kt, none⟩, hgk, rfl, rfl, rfl, rfl⟩

theorem extend_represents {l : KeyNodeList K T} {kvs ps : List (K × T)}
    (h : Represents l kvs) :
    Represents (l.extend ps) (extendPairs kvs ps) := by
  induction ps generalizing l kvs with
  | nil => exact h
  | cons hd rest ih =>
    obtain ⟨k, v⟩ := hd
    have hstep : l.extend ((k, v) :: rest) =
        ((l.push_back k v).2).extend rest := rfl
    rw [hstep]
    by_cases hmem : k ∈ kvs.map Prod.fst
    · have hs : k ∈ l.nodes.map Prod.fst := h.2.2.2.2.2.1 k hmem
      have hcont : scontains l.nodes k = true := by
        rw [scontains]
        exact sget_isSome_iff_mem.mpr hs
      rw [show extendPairs kvs ((k, v) :: rest) = extendPairs kvs rest from
        by simp [extendPairs, hmem]]
      rw [push_back_dup hcont]
      exact ih h
    · have hs : k ∉ l.nodes.map Prod.fst := fun hm => hmem (h.2.2.2.2.1 k hm)
      have hk : sget l.nodes k = none := sget_eq_none_iff.mpr hs
      rw [show extendPairs kvs ((k, v) :: rest) =
        extendPairs (kvs ++ [(k, v)]) rest from by simp [extendPairs, hmem]]
      exact ih (push_back_represents h hk).2

/-! ## The claims -/

/-- Claim C1 (refuted by the code): the spec says the five section-3
invariants hold after every public mutating operation, but `pop_front`
breaks them.  After `push_back(1, 10); pop_front()` the store is empty
while `tail` is still `Some 1` (invariant 1 fails), and after popping the
front of `[(1, 10), (2, 20)]` the new head node `2` still has
`prev = Some 1`, a key no longer in the store (invariants 2 and 3 fail).
The final conjunct shows no well-formed sequence is represented by the
first resulting state. -/
theorem pop_front_breaks_invariants :
    ((((KeyNodeList.new : KeyNodeList Nat Nat).push_back 1 10).2.pop_front).2 =
      ⟨[], none, some 1⟩) ∧
    (((KeyNodeList.fromList [(1, 10), (2, 20)] : KeyNodeList Nat Nat).pop_front).2 =
      ⟨[(2, ⟨20, some 1, none⟩)], some 2, some 2⟩) ∧
    (∀ kvs : List (Nat × Nat),
      ¬ Represents
        ((((KeyNodeList.new : KeyNodeList Nat Nat).push_back 1 10).2.pop_front).2)
        kvs) := by
  refine ⟨by decide, by decide, ?_⟩
  intro kvs h
  rw [show (((KeyNodeList.new : KeyNodeList Nat Nat).push_back 1 10).2.pop_front).2 =
      (⟨[], none, some 1⟩ : KeyNodeList Nat Nat) from by decide] at h
  obtain ⟨-, htail, -, -, -, hsub2, -⟩ := h
  cases kvs with
  | nil => simp [lastKey] at htail
  | cons hd tl =>
    have hm := hsub2 hd.1 (by simp)
    simp at hm

/-- Claim C2 (refuted by the code): `pop_front` on an empty list returns
nothing and it does return the head pair otherwise, but `None` is not
propagated to the opposite end pointer: after popping the only pair,
`front_key()` is `None` while `back_key()` is still `Some 1` (the claim,
and `back_key`'s own documentation, say both are `None`); `pop_back`
symmetrically leaves `front_key() = Some 1`. -/
theorem pop_front_leaves_stale_back_key :
    ((KeyNodeList.new : KeyNodeList Nat Nat).pop_front =
      (none, KeyNodeList.new)) ∧
    ((((KeyNodeList.new : KeyNodeList Nat Nat).push_back 1 10).2.pop_front).1 =
      some (1, ⟨10, none, none⟩)) ∧
    ((((KeyNodeList.new : KeyNodeList Nat Nat).push_back 1 10).2.pop_front).2.front_key
      = none) ∧
    ((((KeyNodeList.new : KeyNodeList Nat Nat).push_back 1 10).2.pop_front).2.back_key
      = some 1) ∧
    ((((KeyNodeList.new : KeyNodeList Nat Nat).push_back 1 10).2.pop_back).2.front_key
      = some 1) ∧
    ((((KeyNodeList.new : KeyNodeList Nat Nat).push_back 1 10).2.pop_back).2.back_key
      = none) := by
  decide

/-- Claim C3 (confirmed): every insertion operation (`push_front`,
`push_back`, `insert_after`, `insert_before`) rejects a key that is already
present, handing the original key and value back and leaving the list (and
for cursors, the cursor position) completely unchanged. -/
theorem duplicate_insert_rejected_unchanged (l : KeyNodeList K T)
    (c : CursorMut K T) (key : K) (v : T)
    (hl : scontains l.nodes key = true)
    (hc : scontains c.list.nodes key = true) :
    l.push_front key v = (some (key, v), l) ∧
    l.push_back key v = (some (key, v), l) ∧
    c.insert_after key v = (some (key, v), c) ∧
    c.insert_before key v = (some (key, v), c) :=
  ⟨push_front_dup hl, push_back_dup hl, insert_after_dup hc, insert_before_dup hc⟩

/-- Witness for `duplicate_insert_rejected_unchanged` at key `1` of the
singleton list `[(1, 10)]`. -/
theorem duplicate_insert_rejected_unchanged_witness :
    scontains (KeyNodeList.fromList [(1, 10)] : KeyNodeList Nat Nat).nodes 1
      = true ∧
    (KeyNodeList.fromList [(1, 10)] : KeyNodeList Nat Nat).push_back 1 99 =
      (some (1, 99), KeyNodeList.fromList [(1, 10)]) :=
  ⟨by decide,
    (duplicate_insert_rejected_unchanged (KeyNodeList.fromList [(1, 10)])
      ⟨KeyNodeList.fromList [(1, 10)], some 1⟩ 1 99 (by decide) (by decide)).2.1⟩

/-- Claim C10 (confirmed): the `Index` operator returns the stored node
exactly when the key is present and panics with the message
`no entry found for key` exactly when it is absent, whereas `node(key)`
returns `None` for an absent key. -/
theorem index_found_iff_present (l : KeyNodeList K T) (key : K) :
    (l.index key = IndexResult.panicked "no entry found for key" ↔
      l.node key = none) ∧
    (∀ n, l.index key = IndexResult.found n ↔ l.node key = some n) ∧
    (l.contains_key key = false ↔ l.node key = none) := by
  refine ⟨?_, ?_, ?_⟩
  · cases h : sget l.nodes key <;>
      simp [KeyNodeList.index, KeyNodeList.node, h]
  · intro n
    cases h : sget l.nodes key <;>
      simp [KeyNodeList.index, KeyNodeList.node, h]
  · cases h : sget l.nodes key <;>
      simp [KeyNodeList.contains_key, KeyNodeList.node, scontains, h]

/-- Claim C4 (confirmed): on a null cursor with a fresh key,
`insert_after` inserts the pair at the front (the new key becomes head)
and `insert_before` inserts it at the back (the new key becomes tail); in
both cases the insertion succeeds and the cursor stays at the null
position. -/
theorem null_cursor_insert_boundaries (c : CursorMut K T) (key : K) (v : T)
    (hnull : c.key = none) (hfresh : scontains c.list.nodes key = false) :
    (c.insert_after key v).1 = none ∧
    (c.insert_after key v).2.list.head = some key ∧
    (c.insert_after key v).2.key = none ∧
    (c.insert_before key v).1 = none ∧
    (c.insert_before key v).2.list.tail = some key ∧
    (c.insert_before key v).2.key = none := by
  have hins : sinsert c.list.nodes key (ValueNode.new v) =
      some (c.list.nodes ++ [(key, ValueNode.new v)]) := by
    simp [sinsert, hfresh]
  refine ⟨?_, ?_, ?_, ?_, ?_, ?_⟩ <;>
    simp only [CursorMut.insert_after, CursorMut.insert_before, hins, hnull] <;>
    cases hh : c.list.head <;> cases ht : c.list.tail <;>
      simp [KeyNodeList.setPrev, KeyNodeList.setNext]

/-- Witness for `null_cursor_insert_boundaries`: a null cursor over
`[(1, 10)]` and the fresh key `7`. -/
theorem null_cursor_insert_boundaries_witness :
    (CursorMut.mk (KeyNodeList.fromList [(1, 10)] : KeyNodeList Nat Nat) none).key = none ∧
    scontains (KeyNodeList.fromList [(1, 10)] : KeyNodeList Nat Nat).nodes 7
      = false ∧
    (CursorMut.insert_after
      ⟨KeyNodeList.fromList [(1, 10)], none⟩ 7 70).2.list.head = some 7 ∧
    (CursorMut.insert_before
      (⟨KeyNodeList.fromList [(1, 10)], none⟩ : CursorMut Nat Nat) 7 70).2.list.tail
      = some 7 :=
  ⟨rfl, by decide,
    (null_cursor_insert_boundaries
      ⟨KeyNodeList.fromList [(1, 10)], none⟩ 7 70 rfl (by decide)).2.1,
    (null_cursor_insert_boundaries
      (⟨KeyNodeList.fromList [(1, 10)], none⟩ : CursorMut Nat Nat) 7 70 rfl
      (by decide)).2.2.2.2.1⟩

/-- Claim C5 (confirmed): `remove_current` is a no-op returning nothing on
a null cursor (list and cursor unchanged); otherwise it removes and
returns the pair at the cursor's key, and the cursor then points at the
removed node's former `next` — exactly the position `move_next` would have
reached from the removed node.  With unique store keys the removed key is
indeed gone from the resulting list. -/
theorem remove_current_null_or_removes (c : CursorMut K T) :
    (c.key = none → c.remove_current = (none, c)) ∧
    (∀ k n, c.key = some k → sget c.list.nodes k = some n →
      c.remove_current.1 = some (k, n) ∧
      c.remove_current.2.key = n.next ∧
      moveNextKey c.list (some k) = n.next ∧
      ((c.list.nodes.map Prod.fst).Nodup →
        sget c.remove_current.2.list.nodes k = none)) := by
  constructor
  · intro hnull
    simp [CursorMut.remove_current, hnull]
  · intro k n hck hn
    obtain ⟨s', hs'⟩ := sremove_of_sget hn
    refine ⟨?_, ?_, ?_, ?_⟩
    · simp [CursorMut.remove_current, hck, KeyNodeList.remove, hs']
    · simp [CursorMut.remove_current, hck, KeyNodeList.remove, hs']
    · simp [moveNextKey, hn]
    · intro hnd
      have hbase : sget s' k = none := sget_sremove_of_nodup hnd hs'
      cases hp : n.prev <;> cases hq : n.next <;>
        simp only [CursorMut.remove_current, hck, KeyNodeList.remove, hs', hp,
          hq, KeyNodeList.setPrev, KeyNodeList.setNext] <;>
        first
          | exact hbase
          | exact sget_supdate_none hbase
          | exact sget_supdate_none (sget_supdate_none hbase)

/-- Witness for `remove_current_null_or_removes`: the null-cursor no-op
over `[(1, 10)]`, and removal at key `1` of `[(1, 10), (2, 20)]`. -/
theorem remove_current_null_or_removes_witness :
    (CursorMut.remove_current
      (⟨KeyNodeList.fromList [(1, 10)], none⟩ : CursorMut Nat Nat) =
      (none, ⟨KeyNodeList.fromList [(1, 10)], none⟩)) ∧
    ((CursorMut.remove_current
      (⟨KeyNodeList.fromList [(1, 10), (2, 20)], some 1⟩ : CursorMut Nat Nat)).1 =
      some (1, ⟨10, none, some 2⟩)) :=
  ⟨(remove_current_null_or_removes
      (⟨KeyNodeList.fromList [(1, 10)], none⟩ : CursorMut Nat Nat)).1 rfl,
    ((remove_current_null_or_removes
      (⟨KeyNodeList.fromList [(1, 10), (2, 20)], some 1⟩ : CursorMut Nat Nat)).2
      1 ⟨10, none, some 2⟩ rfl (by decide)).1⟩

/-- Claim C6 (confirmed): `CursorMut::pop_front` first advances the cursor
via `move_next` when it sits at the front key, so on a list of at least two
pairs the cursor ends at the new front key (not null) and the returned
pair is the former front; `CursorMut::pop_back` nulls the cursor when it
sits at the back key; at every other cursor position both operations leave
the cursor position unchanged. -/
theorem cursor_pop_front_back_coupling (c : CursorMut K T) (k1 k2 : K)
    (v1 v2 : T) (rest : List (K × T)) :
    (Represents c.list ((k1, v1) :: (k2, v2) :: rest) → c.key = some k1 →
      ∃ n1, sget c.list.nodes k1 = some n1 ∧
        c.pop_front.1 = some (k1, n1) ∧
        c.pop_front.2.key = some k2 ∧
        c.pop_front.2.list.head = some k2) ∧
    (c.key = c.list.tail → c.pop_back.2.key = none) ∧
    (c.key = none → c.pop_front.2.key = none) ∧
    (c.key = none → c.pop_back.2.key = none) ∧
    (c.list.head ≠ c.key → c.pop_front.2.key = c.key) ∧
    (c.list.tail ≠ c.key → c.pop_back.2.key = c.key) := by
  refine ⟨?_, ?_, ?_, ?_, ?_, ?_⟩
  · intro hrep hck
    obtain ⟨hhead, htail, hsnd, hknd, hsub1, hsub2, hchain⟩ := hrep
    rw [chainOk_cons] at hchain
    obtain ⟨n1, hn1, hv1, hp1, hnx1, hrest⟩ := hchain
    have hnx : n1.next = some k2 := by
      simpa [nextKey] using hnx1
    have hhead' : c.list.head = some k1 := by
      simpa [nextKey] using hhead
    obtain ⟨s', hs'⟩ := sremove_of_sget hn1
    refine ⟨n1, hn1, ?_, ?_, ?_⟩ <;>
      simp [CursorMut.pop_front, hhead', hck, CursorMut.move_next, moveNextKey,
        hn1, hnx, KeyNodeList.pop_front, hs']
  · intro htk
    simp [CursorMut.pop_back, htk.symm]
  · intro h0
    cases hh : c.list.head <;>
      simp [CursorMut.pop_front, h0, hh, CursorMut.move_next, moveNextKey]
  · intro h0
    cases ht : c.list.tail <;>
      simp [CursorMut.pop_back, h0, ht]
  · intro hne
    simp [CursorMut.pop_front, hne]
  · intro hne
    simp [CursorMut.pop_back, hne]

/-- Witness for `cursor_pop_front_back_coupling` over the list
`[(3, 30), (4, 40), (5, 50)]`: a cursor at the front key `3` ends at the
new front `4` after `pop_front`, and a cursor at the back key `5` becomes
null after `pop_back`. -/
theorem cursor_pop_front_back_coupling_witness :
    Represents (KeyNodeList.fromList [(3, 30), (4, 40), (5, 50)] :
        KeyNodeList Nat Nat) [(3, 30), (4, 40), (5, 50)] ∧
    (∃ n1, sget (KeyNodeList.fromList [(3, 30), (4, 40), (5, 50)] :
          KeyNodeList Nat Nat).nodes 3 = some n1 ∧
      (CursorMut.pop_front
        ⟨KeyNodeList.fromList [(3, 30), (4, 40), (5, 50)], some 3⟩).1 =
        some (3, n1) ∧
      (CursorMut.pop_front
        ⟨KeyNodeList.fromList [(3, 30), (4, 40), (5, 50)], some 3⟩).2.key =
        some 4 ∧
      (CursorMut.pop_front
        ⟨KeyNodeList.fromList [(3, 30), (4, 40), (5, 50)], some 3⟩).2.list.head =
        some 4) ∧
    (CursorMut.pop_back
      (⟨KeyNodeList.fromList [(3, 30), (4, 40), (5, 50)], some 5⟩ :
        CursorMut Nat Nat)).2.key = none :=
  ⟨by decide,
    (cursor_pop_front_back_coupling
      (⟨KeyNodeList.fromList [(3, 30), (4, 40), (5, 50)], some 3⟩ :
        CursorMut Nat Nat) 3 4 30 40 [(5, 50)]).1 (by decide) rfl,
    (cursor_pop_front_back_coupling
      (⟨KeyNodeList.fromList [(3, 30), (4, 40), (5, 50)], some 5⟩ :
        CursorMut Nat Nat) 3 4 30 40 [(5, 50)]).2.1 (by decide)⟩

/-- Claim C7 (confirmed): on a well-formed list, `move_next` and
`move_prev` are total transitions.  From null, `move_next` reaches the
head key (it stays null exactly when the sequence is empty, since
`nextKey kvs none` is its first key); from the key at position `i` it
reaches the key at position `i + 1` (null past the tail).  `move_prev` is
the mirror image.  Consequently iterating `move_next` from null cycles
null, head, ..., tail, null with period `n + 1`. -/
theorem move_next_move_prev_total_cycle (l : KeyNodeList K T)
    (kvs : List (K × T)) (h : Represents l kvs) :
    (moveNextKey l none = nextKey kvs none) ∧
    (∀ i k, (kvs.map Prod.fst).get? i = some k →
        moveNextKey l (some k) = (kvs.map Prod.fst).get? (i + 1)) ∧
    (movePrevKey l none = lastKey kvs none) ∧
    (∀ k, (kvs.map Prod.fst).get? 0 = some k →
        movePrevKey l (some k) = none) ∧
    (∀ i k, (kvs.map Prod.fst).get? (i + 1) = some k →
        movePrevKey l (some k) = (kvs.map Prod.fst).get? i) ∧
    (∀ i, (moveNextKey l)^[i + (kvs.length + 1)] none =
        (moveNextKey l)^[i] none) := by
  have hchain := h.2.2.2.2.2.2
  refine ⟨h.1, ?_, h.2.1, ?_, ?_, moveNext_cycle h⟩
  · intro i k hk
    exact chainOk_next_step hchain i k hk
  · intro k hk
    exact chainOk_prev_zero hchain k hk
  · intro i k hk
    exact chainOk_prev_step hchain i k hk

/-- Witness for `move_next_move_prev_total_cycle` on `[(1, 10), (2, 20)]`:
iterating `move_next` three more times from any point lands on the same
position (period `n + 1 = 3`). -/
theorem move_next_move_prev_total_cycle_witness :
    Represents (KeyNodeList.fromList [(1, 10), (2, 20)] : KeyNodeList Nat Nat)
      [(1, 10), (2, 20)] ∧
    (moveNextKey (KeyNodeList.fromList [(1, 10), (2, 20)] :
        KeyNodeList Nat Nat))^[1 + (2 + 1)] none =
      (moveNextKey (KeyNodeList.fromList [(1, 10), (2, 20)] :
        KeyNodeList Nat Nat))^[1] none :=
  ⟨by decide,
    (move_next_move_prev_total_cycle _ [(1, 10), (2, 20)]
      (by decide)).2.2.2.2.2 1⟩

/-- Claim C8 (refuted by the code): `into_iter` is repeated `pop_front`
and does yield all `N` pairs in head-to-tail order, then nothing forever;
but the consumed list retains residual state: after draining
`[(1, 10), (2, 20)]` the store is empty and `head` is `None`, yet `tail`
is still `Some 2` instead of `None`. -/
theorem into_iter_leaves_residual_tail :
    ((KeyNodeList.fromList [(1, 10), (2, 20)] : KeyNodeList Nat Nat).drain =
      [(1, ⟨10, none, some 2⟩), (2, ⟨20, some 1, none⟩)]) ∧
    ((((KeyNodeList.fromList [(1, 10), (2, 20)] :
        KeyNodeList Nat Nat).pop_front).2.pop_front).2 =
      ⟨[], none, some 2⟩) := by
  decide

/-- Claim C9 (confirmed): the construction helpers (`Extend`,
`FromIterator`, `From<[(K, T); LEN]>`, all reducing to `extend`) push each
input pair to the back in input order and silently drop any pair whose key
is already present, so the first occurrence of each key wins
(`extendPairs` keeps exactly the first occurrences in order) and
construction, whose result type carries no error, never reports a
failure. -/
theorem extend_pushes_back_first_occurrence_wins (l : KeyNodeList K T)
    (kvs ps : List (K × T)) (h : Represents l kvs) :
    Represents (l.extend ps) (extendPairs kvs ps) ∧
    KeyNodeList.fromList ps = KeyNodeList.new.extend ps ∧
    Represents (KeyNodeList.fromList ps) (extendPairs [] ps) :=
  ⟨extend_represents h, rfl, extend_represents represents_new⟩

/-- Witness for `extend_pushes_back_first_occurrence_wins`: extending
`[(1, 5)]` with `[(2, 8), (1, 9), (3, 7)]` keeps the original value at key
`1` and appends `2` and `3` in order. -/
theorem extend_pushes_back_first_occurrence_wins_witness :
    Represents (KeyNodeList.fromList [(1, 5)] : KeyNodeList Nat Nat)
      [(1, 5)] ∧
    Represents ((KeyNodeList.fromList [(1, 5)] : KeyNodeList Nat Nat).extend
        [(2, 8), (1, 9), (3, 7)])
      (extendPairs [(1, 5)] [(2, 8), (1, 9), (3, 7)]) :=
  ⟨by decide,
    (extend_pushes_back_first_occurrence_wins _ [(1, 5)]
      [(2, 8), (1, 9), (3, 7)] (by decide)).1⟩

/-- Witness for `index_found_iff_present`: indexing `[(1, 10)]` at the
absent key `2` panics with the documented message. -/
theorem index_found_iff_present_witness :
    ((KeyNodeList.fromList [(1, 10)] : KeyNodeList Nat Nat).index 2 =
      IndexResult.panicked "no entry found for key" ↔
      (KeyNodeList.fromList [(1, 10)] : KeyNodeList Nat Nat).node 2 = none) :=
  (index_found_iff_present (KeyNodeList.fromList [(1, 10)]) 2).1

end KNLVerif
